import Mathlib

/-!
Verification of the tinySearch indexing engine (src/main.rs) against its
specification.

Shallow embedding conventions:
* Rust `&[char]` slices become `List Char`.
* Rust's Unicode character classes (`char::is_whitespace`, `char::is_numeric`,
  `char::is_alphabetic`, `char::is_lowercase`) are modelled by their ASCII
  restrictions `Char.isWhitespace`, `Char.isDigit`, `Char.isAlpha`,
  `Char.isLower`; the spec fixes terms to be ASCII strings, and every claim
  proved here is about the structure of the algorithms, which does not depend
  on the extension of these classes beyond their pairwise disjointness.
* `HashMap` values become association lists with `HashMap::insert`
  (replace-if-present) semantics; equality of mappings is lookup equality,
  which on these lists coincides with list equality whenever keys are nodup.
* Filesystem effects (directory listings, XML extraction results) become an
  explicit tree datatype `FsEntry`; `Ok`/`Err` results become `Except Unit`.
* Rust's `&mut TermFreqIndex` out-parameter of `tf_index_of_folder` becomes
  explicit state passing: the function returns the (possibly partially
  updated) index together with its `Result` status, so that the partial
  index accumulated before an error is observable, exactly as it is in the
  caller `entry`.
-/

namespace TinySearch

/-! ## Lexer (src/main.rs lines 12-67) -/

/-- Rust `Lexer::trim_left`: drop leading whitespace from the content slice. -/
def trim_left (l : List Char) : List Char :=
  l.dropWhile Char.isWhitespace

/-- Rust `Lexer::chop_while`: split off the maximal leading run satisfying the
predicate, returning (token, remaining content). -/
def chop_while (p : Char → Bool) (l : List Char) : List Char × List Char :=
  (l.takeWhile p, l.dropWhile p)

/-- Rust `Lexer::next_token`: trim leading whitespace; on empty content return
`none`; otherwise chop a maximal numeric run, else a maximal alphabetic run,
else a single character.  Returns the token plus the remaining content. -/
def next_token (l : List Char) : Option (List Char × List Char) :=
  match trim_left l with
  | [] => none
  | c :: rest =>
    if c.isDigit then some (chop_while Char.isDigit (c :: rest))
    else if c.isAlpha then some (chop_while Char.isAlpha (c :: rest))
    else some ([c], rest)

/-- Fuel-indexed iteration of `next_token` (the `Iterator` impl collected into
a list); `tokenize` below supplies enough fuel so the fuel never runs out. -/
def tokenizeF : Nat → List Char → List (List Char)
  | 0, _ => []
  | n + 1, l =>
    match next_token l with
    | none => []
    | some (t, rest) => t :: tokenizeF n rest

/-- The token sequence the `Lexer` iterator produces on `l`. -/
def tokenize (l : List Char) : List (List Char) :=
  tokenizeF l.length l

/-! ## Term frequency table construction (src/main.rs lines 150-162)

`TermFreq = HashMap<String, usize>` is modelled as an association list with
unique keys; `HashMap::get_mut`/`insert` become `tf_bump`.
-/

/-- A term frequency table: term (uppercase string) to occurrence count. -/
abbrev TermFreq := List (String × Nat)

/-- The `Term` a token is normalized to before insertion:
`token.iter().map(|x| x.to_ascii_uppercase()).collect::<String>()`. -/
def term_of_token (t : List Char) : String :=
  String.mk (t.map Char.toUpper)

/-- One iteration of the counting loop: if the term is present, increment its
count (`get_mut` / `*freq += 1`), otherwise insert it with count 1. -/
def tf_bump (tf : TermFreq) (term : String) : TermFreq :=
  match tf with
  | [] => [(term, 1)]
  | (k, v) :: rest =>
    if k = term then (k, v + 1) :: rest else (k, v) :: tf_bump rest term

/-- The `TermFreq` built from a document's extracted content (the `for token
in Lexer::new(&content)` loop). -/
def tf_of_content (content : List Char) : TermFreq :=
  (tokenize content).foldl (fun tf tok => tf_bump tf (term_of_token tok)) []

/-- Sum of all stored counts (the document's total token count). -/
def sumVals (tf : TermFreq) : Nat :=
  (tf.map Prod.snd).sum

/-! ## Maps: `HashMap` insert/lookup on association lists -/

/-- Rust `HashMap::insert`: replace the value if the key is present, else add the
pair.  (On an association list the replaced entry keeps its position and a
fresh key is appended; only lookup equality matters.) -/
def insertMap {β : Type} : List (String × β) → String → β → List (String × β)
  | [], k, v => [(k, v)]
  | (k', v') :: rest, k, v =>
    if k' = k then (k', v) :: rest else (k', v') :: insertMap rest k v

/-- Rust `HashMap::get`: the value stored at a key, if any. -/
def lookupMap {β : Type} : List (String × β) → String → Option β
  | [], _ => none
  | (k', v') :: rest, k => if k' = k then some v' else lookupMap rest k

/-- Rust `TermFreqIndex = HashMap<PathBuf, TermFreq>`: document id (path, modelled
as a string) to term frequency table. -/
abbrev TermFreqIndex := List (String × TermFreq)

/-! ## Index persistence (src/main.rs lines 102-111 and 168-183)

`save_tf_index` writes the index with `serde_json::to_writer`;
`check_index` reads it back with `serde_json::from_reader`.  The JSON value
(objects with string keys, non-negative integer leaves) is modelled as an
explicit tree; the byte-level JSON text encoding is the serde library's
round-trip-faithful transport of this tree and is out of scope (spec §1).
Deserializing into a `HashMap` inserts each field in order, so duplicate
keys (impossible when serializing a map) would keep the last value.
-/

inductive Json where
  | num (n : Nat)
  | str (s : String)
  | obj (fields : List (String × Json))

/-- Serialization of one `TermFreq` table (a JSON object of counts). -/
def save_tf (tf : TermFreq) : Json :=
  Json.obj (tf.map fun kv => (kv.1, Json.num kv.2))

/-- Rust `save_tf_index`: the JSON value `serde_json` writes for the index. -/
def save_tf_index (tf_index : TermFreqIndex) : Json :=
  Json.obj (tf_index.map fun kv => (kv.1, save_tf kv.2))

/-- Deserializing a `usize`: only a JSON number is accepted. -/
def load_nat : Json → Option Nat
  | Json.num n => some n
  | _ => none

def load_tf_fields : List (String × Json) → TermFreq → Option TermFreq
  | [], acc => some acc
  | (k, j) :: rest, acc =>
    match load_nat j with
    | none => none
    | some n => load_tf_fields rest (insertMap acc k n)

/-- Deserializing one `HashMap<String, usize>`: only an object whose values
are all numbers is accepted. -/
def load_tf : Json → Option TermFreq
  | Json.obj fields => load_tf_fields fields []
  | _ => none

def load_index_fields : List (String × Json) → TermFreqIndex → Option TermFreqIndex
  | [], acc => some acc
  | (k, j) :: rest, acc =>
    match load_tf j with
    | none => none
    | some tf => load_index_fields rest (insertMap acc k tf)

/-- Deserializing a `TermFreqIndex` (the read half of `check_index`):
only an object of objects of numbers is accepted. -/
def load_index : Json → Option TermFreqIndex
  | Json.obj fields => load_index_fields fields []
  | _ => none

/-! ## Corpus walk (src/main.rs lines 113-166)

`tf_index_of_folder` walks a directory tree, mutating a `&mut TermFreqIndex`
and returning `Result<(), ()>`.  The filesystem is modelled as an explicit
tree: a file carries the result of `parse_entire_xml_file` (`none` =
extraction failed), a directory carries the result of `fs::read_dir`
(`none` = unreadable).  The mutable index becomes explicit state: the walk
returns the index as updated so far together with the `Result`, so that the
partial index accumulated before an error remains observable (as it does in
the caller, where `tf_index` lives on).  Symbolic links are out of scope
(the code has a TODO for them), and the per-entry `file_type` failure is not
modelled separately — it behaves like an unreadable listing entry.
-/

inductive FsEntry where
  | file (path : String) (extraction : Option String)
  | dir (path : String) (listing : Option (List FsEntry))

/-- The `TermFreq` built for one extracted document (`content.chars()` fed
through the `Lexer` counting loop). -/
def tf_of_string (s : String) : TermFreq :=
  tf_of_content s.data

/-- The `for file in dir` loop of `tf_index_of_folder`: extraction failure
skips the file (`continue 'next_file`), a subdirectory is recursed into with
`?` propagating its error, and a successful extraction inserts the
document's table under its path. -/
def walkEntries : List FsEntry → TermFreqIndex → TermFreqIndex × Except Unit Unit
  | [], idx => (idx, Except.ok ())
  | FsEntry.file p ext :: rest, idx =>
    match ext with
    | none => walkEntries rest idx
    | some content => walkEntries rest (insertMap idx p (tf_of_string content))
  | FsEntry.dir _ none :: _, idx => (idx, Except.error ())
  | FsEntry.dir _ (some sub) :: rest, idx =>
    match walkEntries sub idx with
    | (idx', Except.ok _) => walkEntries rest idx'
    | (idx', Except.error e) => (idx', Except.error e)

/-- Rust `tf_index_of_folder` on a corpus root: `fs::read_dir` failure is an
immediate error, otherwise the listing is walked. -/
def tf_index_of_folder (listing : Option (List FsEntry)) (tf_index : TermFreqIndex) :
    TermFreqIndex × Except Unit Unit :=
  match listing with
  | none => (tf_index, Except.error ())
  | some entries => walkEntries entries tf_index

/-- Does the tree contain a reachable unreadable directory? -/
def listBad : List FsEntry → Bool
  | [] => false
  | FsEntry.file _ _ :: rest => listBad rest
  | FsEntry.dir _ none :: _ => true
  | FsEntry.dir _ (some sub) :: rest => listBad sub || listBad rest

/-- Paths of the files whose extraction succeeds, in walk order. -/
def okPaths : List FsEntry → List String
  | [] => []
  | FsEntry.file p (some _) :: rest => p :: okPaths rest
  | FsEntry.file _ none :: rest => okPaths rest
  | FsEntry.dir _ none :: rest => okPaths rest
  | FsEntry.dir _ (some sub) :: rest => okPaths sub ++ okPaths rest

/-! ## Claims C9 and C10: the `entry`/`main` glue (src/main.rs 243-297) -/

inductive ExitStatus where
  | success
  | failure
deriving DecidableEq

/-- Outcome of the `index` subcommand: the index value handed to
`save_tf_index(&tf_index, "index.json")` and the process exit status. -/
structure IndexRun where
  saved : TermFreqIndex
  exit : ExitStatus
deriving DecidableEq

/-- The `index` branch of `entry` followed by `main`'s exit-code mapping:
`tf_index_of_folder(...)` is called on an empty index and its `Result` is
discarded, the accumulated index is saved unconditionally, and `entry`
returns `Ok(())`, which `main` maps to `ExitCode::SUCCESS`. -/
def run_index_subcommand (root : Option (List FsEntry)) : IndexRun :=
  { saved := (tf_index_of_folder root []).1, exit := ExitStatus.success }

/-! ## Ranker (spec §4.5) — modelled from the spec

The search endpoint in src/main.rs (`serve_request`, `POST /api/search`,
lines 218-229) only echoes a placeholder response: the Ranker itself is not
implemented anywhere in this repository (`index_document` is `todo!()`).
The definitions below are therefore modelled from the spec's §4.5 wording
and the claims about ranking are settled against them.
-/

/-- Modelled from the spec: `count(t, d)` is the stored occurrence count,
0 if absent.  (The Ranker is missing from src/main.rs.) -/
def term_count (tf : TermFreq) (t : String) : Nat :=
  (lookupMap tf t).getD 0

/-- Modelled from the spec: `totalTokens(d)` is the sum of all counts in the
document's table.  (The Ranker is missing from src/main.rs.) -/
def totalTokens (tf : TermFreq) : Nat :=
  sumVals tf

/-- Modelled from the spec: the term-frequency table of a document in the
index (empty for an unknown document). -/
def tableOf (I : TermFreqIndex) (d : String) : TermFreq :=
  (lookupMap I d).getD []

/-- Modelled from the spec: `tf(t, d) = count(t, d) / totalTokens(d)`, with
`tf(t, d) = 0` when `totalTokens(d) = 0`. -/
noncomputable def tf_rank (I : TermFreqIndex) (t d : String) : ℝ :=
  if totalTokens (tableOf I d) = 0 then 0
  else (term_count (tableOf I d) t : ℝ) / (totalTokens (tableOf I d) : ℝ)

/-- Modelled from the spec: `df(t)` is the number of documents whose table
contains `t`. -/
def df (I : TermFreqIndex) (t : String) : Nat :=
  (I.filter (fun kv => (lookupMap kv.2 t).isSome)).length

/-- Modelled from the spec: `idf(t) = ln(N / df(t))` with `N` the number of
documents, and `idf(t) = 0` when `df(t) = 0`. -/
noncomputable def idf (I : TermFreqIndex) (t : String) : ℝ :=
  if df I t = 0 then 0 else Real.log ((I.length : ℝ) / (df I t : ℝ))

/-- Modelled from the spec: a document's score for a multi-term query is the
sum over all query terms of `tf(t, d) * idf(t)`. -/
noncomputable def score (I : TermFreqIndex) (q : List String) (d : String) : ℝ :=
  (q.map fun t => tf_rank I t d * idf I t).sum

/-- Modelled from the spec: the ranking order — strictly greater score
first; on equal scores, ascending lexical `DocumentId` order. -/
def rankRel (I : TermFreqIndex) (q : List String) (a b : String) : Prop :=
  score I q b < score I q a ∨ (score I q a = score I q b ∧ a ≤ b)

noncomputable def rankRelDec (I : TermFreqIndex) (q : List String) :
    DecidableRel (rankRel I q) :=
  fun _ _ => Classical.propDecidable _

/-- Modelled from the spec: `search` ranks all candidate documents of the
index by `rankRel`. -/
noncomputable def search (I : TermFreqIndex) (q : List String) : List String :=
  @List.insertionSort String (rankRel I q) (rankRelDec I q) (I.map Prod.fst)

/-! ## Theorems -/

/-! ### Basic facts about the lexer -/

theorem trim_left_length_le (l : List Char) : (trim_left l).length ≤ l.length :=
  (List.dropWhile_sublist Char.isWhitespace).length_le

theorem dropWhile_length_le {α} (p : α → Bool) (l : List α) :
    (l.dropWhile p).length ≤ l.length :=
  (List.dropWhile_sublist p).length_le

theorem next_token_some_length {l t rest : List Char}
    (h : next_token l = some (t, rest)) : rest.length < l.length := by
  have hlen := trim_left_length_le l
  unfold next_token at h
  rcases hw : trim_left l with _ | ⟨c, l'⟩ <;> rw [hw] at h hlen
  · simp at h
  · simp only [List.length_cons] at hlen
    by_cases hd : c.isDigit
    · simp only [hd, if_true, chop_while, Option.some.injEq, Prod.mk.injEq] at h
      have h2 : rest.length ≤ l'.length := by
        rw [← h.2]
        simpa [List.dropWhile, hd] using dropWhile_length_le Char.isDigit l'
      omega
    · by_cases ha : c.isAlpha
      · simp [hd, ha, chop_while] at h
        have h2 : rest.length ≤ l'.length := by
          rw [← h.2]
          simpa [List.dropWhile, ha] using dropWhile_length_le Char.isAlpha l'
        omega
      · simp [hd, ha] at h
        have : l' = rest := h.2
        subst this
        omega

theorem tokenizeF_fuel {n : Nat} {l : List Char} (h : l.length ≤ n) :
    tokenizeF n l = tokenize l := by
  induction n using Nat.strong_induction_on generalizing l with
  | _ n ih =>
    match n with
    | 0 =>
      have : l = [] := List.length_eq_zero.mp (Nat.le_zero.mp h)
      subst this; rfl
    | m + 1 =>
      unfold tokenize
      rcases hl : l.length with _ | k
      · have : l = [] := List.length_eq_zero.mp hl
        subst this; rfl
      · rcases ht : next_token l with _ | ⟨t, rest⟩
        · simp [tokenizeF, ht, hl]
        · have hrest : rest.length < l.length := next_token_some_length ht
          simp only [tokenizeF, ht, hl]
          have h1 : tokenizeF m rest = tokenize rest :=
            ih m (Nat.lt_succ_self m) (by omega)
          have h2 : tokenizeF k rest = tokenize rest :=
            ih k (by omega) (by omega)
          rw [h1, h2]

/-- Unfolding equation for `tokenize`, mirroring one step of the iterator. -/
theorem tokenize_eq (l : List Char) :
    tokenize l = match next_token l with
      | none => []
      | some (t, rest) => t :: tokenize rest := by
  rcases ht : next_token l with _ | ⟨t, rest⟩
  · rcases hl : l.length with _ | k
    · have : l = [] := List.length_eq_zero.mp hl
      subst this; rfl
    · simp [tokenize, hl, tokenizeF, ht]
  · have hrest : rest.length < l.length := next_token_some_length ht
    rcases hl : l.length with _ | k
    · omega
    · simp only [tokenize, hl, tokenizeF, ht]
      rw [tokenizeF_fuel (l := rest) (by omega)]
      rfl

/-- Case analysis of `next_token`, mirroring the three branches of the code. -/
theorem next_token_cases (l : List Char) :
    (next_token l = none ∧ trim_left l = []) ∨
    ∃ c l', trim_left l = c :: l' ∧
      ((c.isDigit = true ∧
          next_token l = some (List.takeWhile Char.isDigit (c :: l'),
            List.dropWhile Char.isDigit (c :: l'))) ∨
       (c.isDigit = false ∧ c.isAlpha = true ∧
          next_token l = some (List.takeWhile Char.isAlpha (c :: l'),
            List.dropWhile Char.isAlpha (c :: l'))) ∨
       (c.isDigit = false ∧ c.isAlpha = false ∧
          next_token l = some ([c], l'))) := by
  unfold next_token
  rcases hw : trim_left l with _ | ⟨c, l'⟩
  · exact Or.inl ⟨rfl, rfl⟩
  · refine Or.inr ⟨c, l', rfl, ?_⟩
    by_cases hd : c.isDigit
    · exact Or.inl ⟨hd, by simp [hd, chop_while]⟩
    · by_cases ha : c.isAlpha
      · exact Or.inr (Or.inl ⟨by simpa using hd, ha, by simp [hd, ha, chop_while]⟩)
      · exact Or.inr (Or.inr ⟨by simpa using hd, by simpa using ha, by simp [hd, ha]⟩)

/-- A (ASCII) digit is never whitespace. -/
theorem isDigit_not_whitespace {c : Char} (h : c.isDigit = true) :
    c.isWhitespace = false := by
  by_contra hw
  rw [Bool.not_eq_false] at hw
  have hws : ((c = ' ' ∨ c = '\t') ∨ c = '\r') ∨ c = '\n' := by
    simpa [Char.isWhitespace] using hw
  rcases hws with ((h1 | h1) | h1) | h1 <;> subst h1 <;> exact absurd h (by decide)

/-- An (ASCII) letter is never whitespace. -/
theorem isAlpha_not_whitespace {c : Char} (h : c.isAlpha = true) :
    c.isWhitespace = false := by
  by_contra hw
  rw [Bool.not_eq_false] at hw
  have hws : ((c = ' ' ∨ c = '\t') ∨ c = '\r') ∨ c = '\n' := by
    simpa [Char.isWhitespace] using hw
  rcases hws with ((h1 | h1) | h1) | h1 <;> subst h1 <;> exact absurd h (by decide)

theorem filter_trim_left (l : List Char) :
    (trim_left l).filter (fun c => !c.isWhitespace) =
      l.filter (fun c => !c.isWhitespace) := by
  induction l with
  | nil => rfl
  | cons c tl ih =>
    by_cases hw : c.isWhitespace
    · simp [trim_left, List.dropWhile, hw] at ih ⊢
      exact ih
    · simp [trim_left, List.dropWhile, hw]

theorem dropWhile_cons_head {α} {p : α → Bool} {l rest : List α} {c : α}
    (h : l.dropWhile p = c :: rest) : p c = false := by
  induction l with
  | nil => simp at h
  | cons a tl ih =>
    by_cases hp : p a
    · simp [List.dropWhile, hp] at h
      exact ih h
    · simp [List.dropWhile, hp] at h
      rw [← h.1]
      simpa using hp

theorem filter_takeWhile_not_ws {p : Char → Bool} {l : List Char}
    (hp : ∀ c, p c = true → c.isWhitespace = false) :
    (l.takeWhile p).filter (fun c => !c.isWhitespace) = l.takeWhile p := by
  rw [List.filter_eq_self]
  intro a ha
  simp [hp a (List.mem_takeWhile_imp ha)]

theorem tokenize_join_bounded : ∀ n (l : List Char), l.length ≤ n →
    (tokenize l).flatten = l.filter (fun c => !c.isWhitespace) := by
  intro n
  induction n with
  | zero =>
    intro l h
    have : l = [] := List.length_eq_zero.mp (Nat.le_zero.mp h)
    subst this; rfl
  | succ n ih =>
    intro l hl
    rw [tokenize_eq l]
    rcases next_token_cases l with ⟨hnone, htrim⟩ | ⟨c, l', htrim, hcase⟩
    · rw [hnone, ← filter_trim_left, htrim]
      rfl
    · rw [← filter_trim_left l, htrim]
      rcases hcase with ⟨hd, hsome⟩ | ⟨hd, ha, hsome⟩ | ⟨hd, ha, hsome⟩
      · rw [hsome]
        have hlt : (List.dropWhile Char.isDigit (c :: l')).length < l.length :=
          next_token_some_length hsome
        simp only [List.flatten_cons]
        rw [ih (List.dropWhile Char.isDigit (c :: l')) (by omega)]
        conv_rhs => rw [← List.takeWhile_append_dropWhile Char.isDigit (c :: l')]
        rw [List.filter_append,
          filter_takeWhile_not_ws (fun c h => isDigit_not_whitespace h)]
      · rw [hsome]
        have hlt : (List.dropWhile Char.isAlpha (c :: l')).length < l.length :=
          next_token_some_length hsome
        simp only [List.flatten_cons]
        rw [ih (List.dropWhile Char.isAlpha (c :: l')) (by omega)]
        conv_rhs => rw [← List.takeWhile_append_dropWhile Char.isAlpha (c :: l')]
        rw [List.filter_append,
          filter_takeWhile_not_ws (fun c h => isAlpha_not_whitespace h)]
      · rw [hsome]
        have hlt : l'.length < l.length := next_token_some_length hsome
        simp only [List.flatten_cons]
        rw [ih l' (by omega)]
        have hcw : c.isWhitespace = false := by
          have := dropWhile_cons_head (l := l) htrim
          simpa using this
        simp [hcw]

/-- A token produced by `next_token` is never empty. -/
theorem next_token_ne_nil {l t rest : List Char}
    (h : next_token l = some (t, rest)) : t ≠ [] := by
  rcases next_token_cases l with ⟨hnone, _⟩ | ⟨c, l', htrim, hcase⟩
  · rw [hnone] at h; cases h
  · rcases hcase with ⟨hd, hsome⟩ | ⟨hd, ha, hsome⟩ | ⟨hd, ha, hsome⟩ <;>
      rw [hsome] at h <;>
      cases h
    · simp [List.takeWhile, hd]
    · simp [List.takeWhile, hd, ha]
    · simp

theorem tokenize_tokens_ne_nil_bounded : ∀ n (l : List Char), l.length ≤ n →
    ∀ t ∈ tokenize l, t ≠ [] := by
  intro n
  induction n with
  | zero =>
    intro l h
    have : l = [] := List.length_eq_zero.mp (Nat.le_zero.mp h)
    subst this
    intro t ht
    simp [tokenize, tokenizeF] at ht
  | succ n ih =>
    intro l hl t ht
    rw [tokenize_eq l] at ht
    rcases hnt : next_token l with _ | ⟨t', rest⟩
    · rw [hnt] at ht; cases ht
    · rw [hnt] at ht
      simp only [List.mem_cons] at ht
      rcases ht with rfl | ht
      · exact next_token_ne_nil hnt
      · have := next_token_some_length hnt
        exact ih rest (by omega) t ht

/-! ## Claim C4 -/

/-- C4: for every input character sequence, concatenating the tokens emitted
by the tokenizer equals the input with all whitespace characters removed,
every emitted token is non-empty, and the empty input yields an empty token
sequence. -/
theorem tokenize_concat_spec (l : List Char) :
    (tokenize l).flatten = l.filter (fun c => !c.isWhitespace) ∧
    (∀ t ∈ tokenize l, t ≠ []) ∧
    tokenize ([] : List Char) = [] :=
  ⟨tokenize_join_bounded l.length l le_rfl,
   fun t ht => tokenize_tokens_ne_nil_bounded l.length l le_rfl t ht, rfl⟩

/-- Witness for C4 at the concrete input `"ab 12"`. -/
theorem tokenize_concat_spec_witness :
    (tokenize ['a', 'b', ' ', '1', '2']).flatten =
        ['a', 'b', ' ', '1', '2'].filter (fun c => !c.isWhitespace) ∧
    ['a', 'b'] ≠ ([] : List Char) :=
  ⟨(tokenize_concat_spec ['a', 'b', ' ', '1', '2']).1,
   (tokenize_concat_spec ['a', 'b', ' ', '1', '2']).2.1 ['a', 'b'] (by decide)⟩

/-! ## Claim C5 -/

theorem next_token_maximal {l t rest : List Char}
    (h : next_token l = some (t, rest)) :
    ((∀ c ∈ t, c.isDigit = true) ∧ ∀ c, rest.head? = some c → c.isDigit = false) ∨
    ((∀ c ∈ t, c.isAlpha = true) ∧ ∀ c, rest.head? = some c → c.isAlpha = false) ∨
    (∃ c, t = [c] ∧ c.isDigit = false ∧ c.isAlpha = false ∧
      c.isWhitespace = false) := by
  rcases next_token_cases l with ⟨hnone, _⟩ | ⟨c, l', htrim, hcase⟩
  · rw [hnone] at h; cases h
  · rcases hcase with ⟨hd, hsome⟩ | ⟨hd, ha, hsome⟩ | ⟨hd, ha, hsome⟩ <;>
      rw [hsome] at h <;> cases h
    · refine Or.inl ⟨fun c hc => List.mem_takeWhile_imp hc, ?_⟩
      intro c₂ hc₂
      rcases hr : List.dropWhile Char.isDigit (c :: l') with _ | ⟨x, xs⟩ <;>
        rw [hr] at hc₂
      · simp at hc₂
      · simp only [List.head?_cons, Option.some.injEq] at hc₂
        subst hc₂
        exact dropWhile_cons_head hr
    · refine Or.inr (Or.inl ⟨fun c hc => List.mem_takeWhile_imp hc, ?_⟩)
      intro c₂ hc₂
      rcases hr : List.dropWhile Char.isAlpha (c :: l') with _ | ⟨x, xs⟩ <;>
        rw [hr] at hc₂
      · simp at hc₂
      · simp only [List.head?_cons, Option.some.injEq] at hc₂
        subst hc₂
        exact dropWhile_cons_head hr
    · refine Or.inr (Or.inr ⟨c, rfl, hd, ha, ?_⟩)
      exact dropWhile_cons_head (p := Char.isWhitespace) htrim

theorem next_token_homog {l t rest : List Char}
    (h : next_token l = some (t, rest)) :
    (∀ c ∈ t, c.isDigit = true) ∨ (∀ c ∈ t, c.isAlpha = true) ∨
    (∃ c, t = [c] ∧ c.isDigit = false ∧ c.isAlpha = false ∧
      c.isWhitespace = false) := by
  rcases next_token_maximal h with ⟨h1, _⟩ | ⟨h1, _⟩ | h1
  · exact Or.inl h1
  · exact Or.inr (Or.inl h1)
  · exact Or.inr (Or.inr h1)

theorem tokenize_homog_bounded : ∀ n (l : List Char), l.length ≤ n →
    ∀ t ∈ tokenize l,
      (∀ c ∈ t, c.isDigit = true) ∨ (∀ c ∈ t, c.isAlpha = true) ∨
      (∃ c, t = [c] ∧ c.isDigit = false ∧ c.isAlpha = false ∧
        c.isWhitespace = false) := by
  intro n
  induction n with
  | zero =>
    intro l h t ht
    have : l = [] := List.length_eq_zero.mp (Nat.le_zero.mp h)
    subst this
    simp [tokenize, tokenizeF] at ht
  | succ n ih =>
    intro l hl t ht
    rw [tokenize_eq l] at ht
    rcases hnt : next_token l with _ | ⟨t', rest⟩
    · rw [hnt] at ht; cases ht
    · rw [hnt] at ht
      simp only [List.mem_cons] at ht
      rcases ht with rfl | ht
      · exact next_token_homog hnt
      · have := next_token_some_length hnt
        exact ih rest (by omega) t ht

/-- C5: every token emitted by the tokenizer is a run of numeric characters,
a run of alphabetic characters, or a single non-alphanumeric non-whitespace
character, and each such run is maximal: the remaining input after a numeric
(resp. alphabetic) token never starts with another numeric (resp. alphabetic)
character, so a mixed run such as "gl4" splits at the boundary. -/
theorem tokenize_token_shape_spec (l : List Char) :
    (∀ t ∈ tokenize l,
      (∀ c ∈ t, c.isDigit = true) ∨ (∀ c ∈ t, c.isAlpha = true) ∨
      (∃ c, t = [c] ∧ c.isDigit = false ∧ c.isAlpha = false ∧
        c.isWhitespace = false)) ∧
    (∀ t rest, next_token l = some (t, rest) →
      ((∀ c ∈ t, c.isDigit = true) ∧
          ∀ c, rest.head? = some c → c.isDigit = false) ∨
      ((∀ c ∈ t, c.isAlpha = true) ∧
          ∀ c, rest.head? = some c → c.isAlpha = false) ∨
      (∃ c, t = [c] ∧ c.isDigit = false ∧ c.isAlpha = false ∧
        c.isWhitespace = false)) :=
  ⟨fun t ht => tokenize_homog_bounded l.length l le_rfl t ht,
   fun _ _ h => next_token_maximal h⟩

/-- Witness for C5 at the concrete input `"gl4"`, whose first token is the
alphabetic run `"gl"` followed by the numeric token `"4"`. -/
theorem tokenize_token_shape_spec_witness :
    ((∀ c ∈ ['g', 'l'], c.isDigit = true) ∨ (∀ c ∈ ['g', 'l'], c.isAlpha = true) ∨
      (∃ c, ['g', 'l'] = [c] ∧ c.isDigit = false ∧ c.isAlpha = false ∧
        c.isWhitespace = false)) ∧
    (((∀ c ∈ ['g', 'l'], c.isDigit = true) ∧
        ∀ c, ['4'].head? = some c → c.isDigit = false) ∨
      ((∀ c ∈ ['g', 'l'], c.isAlpha = true) ∧
        ∀ c, ['4'].head? = some c → c.isAlpha = false) ∨
      (∃ c, ['g', 'l'] = [c] ∧ c.isDigit = false ∧ c.isAlpha = false ∧
        c.isWhitespace = false)) :=
  ⟨(tokenize_token_shape_spec ['g', 'l', '4']).1 ['g', 'l'] (by decide),
   (tokenize_token_shape_spec ['g', 'l', '4']).2 ['g', 'l'] ['4'] (by decide)⟩

theorem sumVals_tf_bump (tf : TermFreq) (t : String) :
    sumVals (tf_bump tf t) = sumVals tf + 1 := by
  induction tf with
  | nil => rfl
  | cons kv rest ih =>
    obtain ⟨k, v⟩ := kv
    by_cases hk : k = t
    · simp [tf_bump, hk, sumVals]
      omega
    · simp [tf_bump, hk, sumVals] at ih ⊢
      omega

theorem counts_tf_bump {tf : TermFreq} {t : String}
    (h : ∀ kv ∈ tf, 1 ≤ kv.2) :
    ∀ kv ∈ tf_bump tf t, 1 ≤ kv.2 := by
  induction tf with
  | nil =>
    intro kv hkv
    simp [tf_bump] at hkv
    subst hkv
    exact le_rfl
  | cons kv' rest ih =>
    obtain ⟨k, v⟩ := kv'
    intro kv hkv
    by_cases hk : k = t
    · simp [tf_bump, hk] at hkv
      rcases hkv with rfl | hkv
      · simp
      · exact h kv (List.mem_cons_of_mem _ hkv)
    · simp [tf_bump, hk] at hkv
      rcases hkv with rfl | hkv
      · exact h (k, v) (List.mem_cons_self _ _)
      · exact ih (fun kv h' => h kv (List.mem_cons_of_mem _ h')) kv hkv

theorem tf_fold_sum (toks : List (List Char)) :
    ∀ acc : TermFreq,
      sumVals (toks.foldl (fun tf tok => tf_bump tf (term_of_token tok)) acc) =
        sumVals acc + toks.length := by
  induction toks with
  | nil => intro acc; simp
  | cons tok rest ih =>
    intro acc
    simp only [List.foldl_cons, List.length_cons]
    rw [ih (tf_bump acc (term_of_token tok)), sumVals_tf_bump]
    omega

theorem tf_fold_counts (toks : List (List Char)) :
    ∀ acc : TermFreq, (∀ kv ∈ acc, 1 ≤ kv.2) →
      ∀ kv ∈ toks.foldl (fun tf tok => tf_bump tf (term_of_token tok)) acc,
        1 ≤ kv.2 := by
  induction toks with
  | nil => intro acc h; simpa using h
  | cons tok rest ih =>
    intro acc h
    simp only [List.foldl_cons]
    exact ih (tf_bump acc (term_of_token tok)) (counts_tf_bump h)

/-! ## Claim C3 -/

/-- C3: every count stored in the constructed `TermFreq` table is at least 1,
and the counts sum to the number of tokens the tokenizer produces on the
document's content. -/
theorem tf_counts_spec (content : List Char) :
    (∀ kv ∈ tf_of_content content, 1 ≤ kv.2) ∧
    sumVals (tf_of_content content) = (tokenize content).length :=
  ⟨tf_fold_counts (tokenize content) [] (by simp),
   by simpa [tf_of_content, sumVals] using tf_fold_sum (tokenize content) []⟩

/-- Witness for C3 at the concrete document content `"aa AA b"`. -/
theorem tf_counts_spec_witness :
    (1 : Nat) ≤ 2 ∧
    sumVals (tf_of_content ['a', 'a', ' ', 'A', 'A', ' ', 'b']) =
      (tokenize ['a', 'a', ' ', 'A', 'A', ' ', 'b']).length :=
  ⟨(tf_counts_spec ['a', 'a', ' ', 'A', 'A', ' ', 'b']).1 ("AA", 2) (by decide),
   (tf_counts_spec ['a', 'a', ' ', 'A', 'A', ' ', 'b']).2⟩

/-! ## Claim C6 -/

theorem keys_tf_bump {tf : TermFreq} {t : String} {kv : String × Nat}
    (h : kv ∈ tf_bump tf t) : kv.1 = t ∨ ∃ v, (kv.1, v) ∈ tf := by
  induction tf with
  | nil =>
    simp [tf_bump] at h
    subst h
    exact Or.inl rfl
  | cons kv' rest ih =>
    obtain ⟨k, v⟩ := kv'
    by_cases hk : k = t
    · simp [tf_bump, hk] at h
      rcases h with rfl | h
      · exact Or.inl rfl
      · exact Or.inr ⟨kv.2, by simp [h]⟩
    · simp [tf_bump, hk] at h
      rcases h with rfl | h
      · exact Or.inr ⟨v, by simp⟩
      · rcases ih h with h1 | ⟨v', h1⟩
        · exact Or.inl h1
        · exact Or.inr ⟨v', List.mem_cons_of_mem _ h1⟩

theorem tf_fold_keys (toks : List (List Char)) :
    ∀ (acc : TermFreq) (kv : String × Nat),
      kv ∈ toks.foldl (fun tf tok => tf_bump tf (term_of_token tok)) acc →
      (∃ v, (kv.1, v) ∈ acc) ∨ ∃ tok ∈ toks, kv.1 = term_of_token tok := by
  induction toks with
  | nil =>
    intro acc kv h
    exact Or.inl ⟨kv.2, by simpa using h⟩
  | cons tok rest ih =>
    intro acc kv h
    simp only [List.foldl_cons] at h
    rcases ih (tf_bump acc (term_of_token tok)) kv h with ⟨v, hv⟩ | ⟨tok', h1, h2⟩
    · rcases keys_tf_bump hv with h1 | ⟨v', h1⟩
      · exact Or.inr ⟨tok, List.mem_cons_self _ _, h1⟩
      · exact Or.inl ⟨v', h1⟩
    · exact Or.inr ⟨tok', List.mem_cons_of_mem _ h1, h2⟩

theorem char_ofNatAux_toNat (n : Nat) (h : n.isValidChar) :
    (Char.ofNatAux n h).toNat = n := by
  simp [Char.ofNatAux, Char.toNat, UInt32.toNat]

theorem isLower_iff (c : Char) :
    c.isLower = true ↔ 97 ≤ c.toNat ∧ c.toNat ≤ 122 := by
  simp [Char.isLower, Char.toNat, UInt32.le_def, BitVec.le_def]
  rfl

theorem toUpper_not_lower (c : Char) : (Char.toUpper c).isLower = false := by
  unfold Char.toUpper
  by_cases hb : c.toNat ≥ 97 ∧ c.toNat ≤ 122
  · simp only [hb, if_true]
    have hv : (c.toNat - 32).isValidChar := Or.inl (by omega)
    rw [Bool.eq_false_iff]
    intro hlow
    rw [isLower_iff] at hlow
    unfold Char.ofNat at hlow
    rw [dif_pos hv] at hlow
    simp only [and_self, ite_true] at hlow
    rw [char_ofNatAux_toNat] at hlow
    omega
  · simp only [hb, if_false]
    rw [Bool.eq_false_iff]
    intro hlow
    rw [isLower_iff] at hlow
    exact hb ⟨hlow.1, hlow.2⟩

/-- C6: every key of the constructed `TermFreq` table is the (ASCII)
upper-cased form of a token the tokenizer produced on the content, and in
particular contains no lowercase letter. -/
theorem tf_terms_uppercase_spec (content : List Char) :
    ∀ kv ∈ tf_of_content content,
      (∃ tok ∈ tokenize content, kv.1 = term_of_token tok) ∧
      ∀ c ∈ kv.1.data, c.isLower = false := by
  intro kv hkv
  rcases tf_fold_keys (tokenize content) [] kv hkv with ⟨v, hv⟩ | ⟨tok, h1, h2⟩
  · simp at hv
  · refine ⟨⟨tok, h1, h2⟩, ?_⟩
    intro c hc
    rw [h2] at hc
    simp only [term_of_token] at hc
    rcases List.mem_map.mp hc with ⟨c', _, rfl⟩
    exact toUpper_not_lower c'

/-- Witness for C6 at the concrete document content `"ab"`. -/
theorem tf_terms_uppercase_spec_witness :
    (∃ tok ∈ tokenize ['a', 'b'], (("AB", 1) : String × Nat).1 = term_of_token tok) ∧
    ∀ c ∈ (("AB", 1) : String × Nat).1.data, c.isLower = false :=
  tf_terms_uppercase_spec ['a', 'b'] ("AB", 1) (by decide)

theorem lookupMap_insertMap_self {β : Type} (m : List (String × β)) (k : String)
    (v : β) : lookupMap (insertMap m k v) k = some v := by
  induction m with
  | nil => simp [insertMap, lookupMap]
  | cons kv rest ih =>
    obtain ⟨k', v'⟩ := kv
    by_cases hk : k' = k
    · simp [insertMap, hk, lookupMap]
    · simp [insertMap, hk, lookupMap, ih]

theorem insertMap_of_not_mem {β : Type} (m : List (String × β)) (k : String)
    (v : β) (h : k ∉ m.map Prod.fst) : insertMap m k v = m ++ [(k, v)] := by
  induction m with
  | nil => rfl
  | cons kv rest ih =>
    obtain ⟨k', v'⟩ := kv
    simp only [List.map_cons, List.mem_cons] at h
    push_neg at h
    have hne : ¬ k' = k := fun he => h.1 he.symm
    simp [insertMap, hne, ih h.2]

theorem load_tf_fields_roundtrip :
    ∀ (tf : TermFreq) (acc : TermFreq),
      (tf.map Prod.fst).Nodup → (∀ k ∈ tf.map Prod.fst, k ∉ acc.map Prod.fst) →
      load_tf_fields (tf.map fun kv => (kv.1, Json.num kv.2)) acc =
        some (acc ++ tf) := by
  intro tf
  induction tf with
  | nil => intro acc _ _; simp [load_tf_fields]
  | cons kv rest ih =>
    obtain ⟨k, v⟩ := kv
    intro acc hnd hdisj
    simp only [List.map_cons, List.nodup_cons] at hnd
    simp only [load_tf_fields, load_nat]
    rw [insertMap_of_not_mem acc k v
      (hdisj k (by simp))]
    rw [ih (acc ++ [(k, v)]) hnd.2 ?_]
    · simp
    · intro k' hk'
      simp only [List.map_append, List.mem_append, List.map_cons] at *
      push_neg
      refine ⟨hdisj k' (by simp [hk']), ?_⟩
      simp only [List.map_nil, List.mem_singleton]
      intro he
      exact hnd.1 (he ▸ hk')

theorem load_tf_roundtrip (tf : TermFreq) (hnd : (tf.map Prod.fst).Nodup) :
    load_tf (save_tf tf) = some tf := by
  simpa [load_tf, save_tf] using load_tf_fields_roundtrip tf [] hnd (by simp)

theorem load_index_fields_roundtrip :
    ∀ (I : TermFreqIndex) (acc : TermFreqIndex),
      (I.map Prod.fst).Nodup → (∀ kv ∈ I, (kv.2.map Prod.fst).Nodup) →
      (∀ k ∈ I.map Prod.fst, k ∉ acc.map Prod.fst) →
      load_index_fields (I.map fun kv => (kv.1, save_tf kv.2)) acc =
        some (acc ++ I) := by
  intro I
  induction I with
  | nil => intro acc _ _ _; simp [load_index_fields]
  | cons kv rest ih =>
    obtain ⟨k, tf⟩ := kv
    intro acc hnd htf hdisj
    simp only [List.map_cons, List.nodup_cons] at hnd
    simp only [load_index_fields, load_tf_roundtrip tf (htf (k, tf) (by simp))]
    rw [insertMap_of_not_mem acc k tf (hdisj k (by simp))]
    rw [ih (acc ++ [(k, tf)]) hnd.2
      (fun kv h => htf kv (List.mem_cons_of_mem _ h)) ?_]
    · simp
    · intro k' hk'
      simp only [List.map_append, List.mem_append, List.map_cons] at *
      push_neg
      refine ⟨hdisj k' (by simp [hk']), ?_⟩
      simp only [List.map_nil, List.mem_singleton]
      intro he
      exact hnd.1 (he ▸ hk')

/-! ## Claim C2 -/

/-- C2: for a valid `TermFreqIndex` (unique document keys, unique term keys
in every table), deserializing the serialized index yields it back exactly,
hence in particular an equal mapping under lookup. -/
theorem load_save_round_trip (I : TermFreqIndex)
    (h1 : (I.map Prod.fst).Nodup)
    (h2 : ∀ kv ∈ I, (kv.2.map Prod.fst).Nodup) :
    load_index (save_tf_index I) = some I ∧
    ∀ J, load_index (save_tf_index I) = some J →
      ∀ d, lookupMap J d = lookupMap I d := by
  have h : load_index (save_tf_index I) = some I := by
    simpa [load_index, save_tf_index] using
      load_index_fields_roundtrip I [] h1 h2 (by simp)
  refine ⟨h, ?_⟩
  intro J hJ d
  rw [h] at hJ
  cases hJ
  rfl

/-- Witness for C2 at a concrete two-document index. -/
theorem load_save_round_trip_witness :
    load_index (save_tf_index [("a", [("X", 1), ("Y", 2)]), ("b", [])]) =
      some [("a", [("X", 1), ("Y", 2)]), ("b", [])] :=
  (load_save_round_trip [("a", [("X", 1), ("Y", 2)]), ("b", [])]
    (by decide) (by decide)).1

theorem keys_insertMap {β : Type} {m : List (String × β)} {k k' : String}
    {v : β} (h : k' ∈ (insertMap m k v).map Prod.fst) :
    k' = k ∨ k' ∈ m.map Prod.fst := by
  induction m with
  | nil =>
    simp [insertMap] at h
    exact Or.inl h
  | cons kv rest ih =>
    obtain ⟨k₀, v₀⟩ := kv
    by_cases hk : k₀ = k
    · simp [insertMap, hk] at h
      rcases h with rfl | h
      · exact Or.inl rfl
      · exact Or.inr (by simp [h])
    · simp [insertMap, hk] at h
      rcases h with rfl | h
      · exact Or.inr (by simp)
      · rcases ih (by simpa using h) with h1 | h1
        · exact Or.inl h1
        · exact Or.inr (by simp [h1])

/-- The status of a walk depends only on the tree: it is an error exactly
when the tree contains a reachable unreadable directory. -/
theorem walkEntries_status (es : List FsEntry) (idx : TermFreqIndex) :
    (walkEntries es idx).2 =
      (if listBad es then Except.error () else Except.ok ()) := by
  induction es, idx using walkEntries.induct with
  | case1 idx => simp [walkEntries, listBad]
  | case2 p rest idx ih => simp [walkEntries, listBad, ih]
  | case3 p c rest idx ih => simp [walkEntries, listBad, ih]
  | case4 d rest idx => simp [walkEntries, listBad]
  | case5 d sub rest idx idx' u heq ihsub ihrest =>
    have hbad : listBad sub = false := by
      rw [heq] at ihsub
      by_cases hb : listBad sub
      · simp [hb] at ihsub
      · simpa using hb
    simp only [walkEntries, heq, listBad, hbad]
    simpa using ihrest
  | case6 d sub rest idx idx' e heq ihsub =>
    have hbad : listBad sub = true := by
      rw [heq] at ihsub
      by_cases hb : listBad sub
      · exact hb
      · simp [hb] at ihsub
    simp [walkEntries, heq, listBad, hbad]

/-- Every key of the index produced by a walk was already present or is the
path of a successfully extracted file of the tree. -/
theorem walkEntries_keys (es : List FsEntry) (idx : TermFreqIndex) :
    ∀ k, k ∈ ((walkEntries es idx).1).map Prod.fst →
      k ∈ idx.map Prod.fst ∨ k ∈ okPaths es := by
  induction es, idx using walkEntries.induct with
  | case1 idx =>
    intro k hk
    exact Or.inl (by simpa [walkEntries] using hk)
  | case2 p rest idx ih =>
    intro k hk
    rcases ih k (by simpa [walkEntries] using hk) with h | h
    · exact Or.inl h
    · exact Or.inr (by simp [okPaths, h])
  | case3 p c rest idx ih =>
    intro k hk
    rcases ih k (by simpa [walkEntries] using hk) with h | h
    · rcases keys_insertMap h with rfl | h1
      · exact Or.inr (by simp [okPaths])
      · exact Or.inl h1
    · exact Or.inr (by simp [okPaths, h])
  | case4 d rest idx =>
    intro k hk
    exact Or.inl (by simpa [walkEntries] using hk)
  | case5 d sub rest idx idx' u heq ihsub ihrest =>
    intro k hk
    have hk' : k ∈ ((walkEntries rest idx').1).map Prod.fst := by
      simpa [walkEntries, heq] using hk
    rcases ihrest k hk' with h | h
    · rcases ihsub k (by simpa [heq] using h) with h1 | h1
      · exact Or.inl h1
      · exact Or.inr (by simp [okPaths, h1])
    · exact Or.inr (by simp [okPaths, h])
  | case6 d sub rest idx idx' e heq ihsub =>
    intro k hk
    have hk' : k ∈ ((walkEntries sub idx).1).map Prod.fst := by
      simpa [walkEntries, heq] using hk
    rcases ihsub k hk' with h | h
    · exact Or.inl h
    · exact Or.inr (by simp [okPaths, h])

theorem okPaths_append (a b : List FsEntry) :
    okPaths (a ++ b) = okPaths a ++ okPaths b := by
  induction a with
  | nil => simp [okPaths]
  | cons e rest ih =>
    cases e with
    | file p ext =>
      cases ext with
      | none => simpa [okPaths] using ih
      | some c => simpa [okPaths] using ih
    | dir d listing =>
      cases listing with
      | none => simpa [okPaths] using ih
      | some sub => simp [okPaths, ih]

/-- Walking a list with a failed-extraction file in it is the same walk
without that file. -/
theorem walkEntries_skip (pre post : List FsEntry) (p : String)
    (idx : TermFreqIndex) :
    walkEntries (pre ++ FsEntry.file p none :: post) idx =
      walkEntries (pre ++ post) idx := by
  induction pre generalizing idx with
  | nil => simp [walkEntries]
  | cons e rest ih =>
    cases e with
    | file q ext =>
      cases ext with
      | none => simpa [walkEntries] using ih idx
      | some c => simpa [walkEntries] using ih (insertMap idx q (tf_of_string c))
    | dir d listing =>
      cases listing with
      | none => simp [walkEntries]
      | some sub =>
        simp only [List.cons_append, walkEntries]
        rcases hw : walkEntries sub idx with ⟨idx', st⟩
        cases st with
        | ok u => simpa using ih idx'
        | error e => simp

/-! ## Claim C7 -/

/-- C7: a document whose extraction fails is skipped: the walk with the
failing file is literally the walk without it (so no entry is inserted for
it, prior entries are untouched, and the walk continues with the next
entry), and every key of any walk result is either preexisting or the path
of a successfully extracted file — never of a failed one. -/
theorem walk_skips_failed_extraction (pre post : List FsEntry) (p : String)
    (idx : TermFreqIndex) :
    walkEntries (pre ++ FsEntry.file p none :: post) idx =
      walkEntries (pre ++ post) idx ∧
    okPaths (pre ++ FsEntry.file p none :: post) = okPaths (pre ++ post) ∧
    (∀ k, k ∈ ((walkEntries (pre ++ FsEntry.file p none :: post) idx).1).map
        Prod.fst →
      k ∈ idx.map Prod.fst ∨ k ∈ okPaths (pre ++ post)) := by
  have hskip := walkEntries_skip pre post p idx
  have hpaths : okPaths (pre ++ FsEntry.file p none :: post) =
      okPaths (pre ++ post) := by
    rw [okPaths_append, okPaths_append]
    simp [okPaths]
  refine ⟨hskip, hpaths, ?_⟩
  intro k hk
  rw [hskip] at hk
  exact walkEntries_keys (pre ++ post) idx k hk

/-- Witness for C7: a corpus with one good file, one failing file, and a
subsequent good file. -/
theorem walk_skips_failed_extraction_witness :
    (walkEntries [FsEntry.file "a" (some "x"), FsEntry.file "bad" none,
        FsEntry.file "c" (some "y")] [] =
      walkEntries [FsEntry.file "a" (some "x"), FsEntry.file "c" (some "y")] []) ∧
    ("a" ∈ (([] : TermFreqIndex)).map Prod.fst ∨
      "a" ∈ okPaths [FsEntry.file "a" (some "x"), FsEntry.file "c" (some "y")]) :=
  ⟨(walk_skips_failed_extraction [FsEntry.file "a" (some "x")]
      [FsEntry.file "c" (some "y")] "bad" []).1,
   (walk_skips_failed_extraction [FsEntry.file "a" (some "x")]
      [FsEntry.file "c" (some "y")] "bad" []).2.2 "a"
      (by simp [walkEntries, insertMap])⟩

/-! ## Claim C8 -/

/-- C8: an unreadable directory is fatal to its corpus root: the walk of a
root returns an error exactly when the root listing is unreadable or a
reachable subdirectory is, so the error propagates up out of the recursion
instead of being skipped. -/
theorem walk_unreadable_dir_fatal (listing : Option (List FsEntry))
    (idx : TermFreqIndex) :
    (tf_index_of_folder listing idx).2 = Except.error () ↔
      (listing = none ∨ ∃ es, listing = some es ∧ listBad es = true) := by
  cases listing with
  | none => simp [tf_index_of_folder]
  | some es =>
    rw [tf_index_of_folder, walkEntries_status]
    by_cases hb : listBad es <;> simp [hb]

/-- C9: when the walk fails partway through, the `index` subcommand still
saves the partial index accumulated so far and the process exits with
success; the walk's failure never reaches the exit code. -/
theorem index_ignores_walk_error (root : Option (List FsEntry))
    (h : (tf_index_of_folder root []).2 = Except.error ()) :
    (run_index_subcommand root).exit = ExitStatus.success ∧
    (run_index_subcommand root).saved = (tf_index_of_folder root []).1 :=
  ⟨rfl, rfl⟩

/-- Witness for C9: a root whose walk indexes one file and then hits an
unreadable directory. -/
theorem index_ignores_walk_error_witness :
    (tf_index_of_folder
        (some [FsEntry.file "a" (some "x"), FsEntry.dir "d" none]) []).2 =
      Except.error () ∧
    (run_index_subcommand
        (some [FsEntry.file "a" (some "x"), FsEntry.dir "d" none])).exit =
      ExitStatus.success :=
  ⟨by simp [tf_index_of_folder, walkEntries],
   (index_ignores_walk_error
      (some [FsEntry.file "a" (some "x"), FsEntry.dir "d" none])
      (by simp [tf_index_of_folder, walkEntries])).1⟩

/-! ## Claim C10 -/

theorem tokenize_all_ws {l : List Char} (h : ∀ c ∈ l, c.isWhitespace = true) :
    tokenize l = [] := by
  have hf : l.filter (fun c => !c.isWhitespace) = [] := by
    rw [List.filter_eq_nil_iff]
    intro c hc
    simp [h c hc]
  have hfl : (tokenize l).flatten = [] :=
    (tokenize_join_bounded l.length l le_rfl).trans hf
  rcases htk : tokenize l with _ | ⟨t, ts⟩
  · rfl
  · exfalso
    rw [htk] at hfl
    simp only [List.flatten_cons, List.append_eq_nil] at hfl
    exact tokenize_tokens_ne_nil_bounded l.length l le_rfl t
      (htk ▸ List.mem_cons_self t ts) hfl.1

/-- C10: a document whose extraction succeeds with empty or all-whitespace
text is still inserted into the index, with an empty `TermFreq` table (total
token count 0), rather than being excluded. -/
theorem empty_doc_indexed (p : String) (txt : String) (rest : List FsEntry)
    (idx : TermFreqIndex) (h : ∀ c ∈ txt.data, c.isWhitespace = true) :
    tf_of_string txt = [] ∧
    walkEntries (FsEntry.file p (some txt) :: rest) idx =
      walkEntries rest (insertMap idx p []) ∧
    lookupMap (insertMap idx p ([] : TermFreq)) p = some [] ∧
    sumVals ([] : TermFreq) = 0 := by
  have htf : tf_of_string txt = [] := by
    simp [tf_of_string, tf_of_content, tokenize_all_ws h]
  refine ⟨htf, ?_, lookupMap_insertMap_self idx p [], rfl⟩
  simp [walkEntries, htf]

/-- Witness for C10: an all-whitespace document. -/
theorem empty_doc_indexed_witness :
    tf_of_string "  " = [] ∧
    walkEntries [FsEntry.file "a" (some "  ")] [] =
      walkEntries [] (insertMap [] "a" []) ∧
    lookupMap (insertMap [] "a" ([] : TermFreq)) "a" = some [] ∧
    sumVals ([] : TermFreq) = 0 :=
  empty_doc_indexed "a" "  " [] [] (by decide)

/-! ## Claim C1 -/

/-- C1 (modelled from the spec; the Ranker is unimplemented in
src/main.rs): a search result lists exactly the index's documents, ordered
so that whenever `a` precedes `b` either `a`'s TF-IDF score (the sum over
query terms of `tf * idf`) strictly exceeds `b`'s, or the scores are equal
and `a ≤ b` in lexical DocumentId order. -/
theorem search_ranking_spec (I : TermFreqIndex) (q : List String) :
    (search I q).Perm (I.map Prod.fst) ∧
    List.Sorted (rankRel I q) (search I q) := by
  constructor
  · exact @List.perm_insertionSort String (rankRel I q) (rankRelDec I q)
      (I.map Prod.fst)
  · have htot : IsTotal String (rankRel I q) := ⟨by
      intro a b
      rcases lt_trichotomy (score I q a) (score I q b) with h | h | h
      · exact Or.inr (Or.inl h)
      · rcases le_total a b with hab | hab
        · exact Or.inl (Or.inr ⟨h, hab⟩)
        · exact Or.inr (Or.inr ⟨h.symm, hab⟩)
      · exact Or.inl (Or.inl h)⟩
    have htr : IsTrans String (rankRel I q) := ⟨by
      intro a b c hab hbc
      rcases hab with hab | ⟨hab, hab'⟩ <;> rcases hbc with hbc | ⟨hbc, hbc'⟩
      · exact Or.inl (lt_trans hbc hab)
      · exact Or.inl (hbc ▸ hab)
      · exact Or.inl (hab ▸ hbc)
      · exact Or.inr ⟨hab.trans hbc, le_trans hab' hbc'⟩⟩
    exact @List.sorted_insertionSort String (rankRel I q) (rankRelDec I q)
      htot htr (I.map Prod.fst)

end TinySearch
